import Mathlib

/-!
Shallow embedding of the range algorithms of `src/include/graal.h` (namespace
`graal`).  A sequence is modelled as a `List α`; an iterator into it is a
natural-number index; the distinguished end position of a whole-list range is
the list's length.  Dereferencing is `List.getD · default`; `std::swap` /
`std::iter_swap` on two positions is `swapL`; assignment through an iterator
is `List.set`.  Each definition below mirrors the loop structure of the
corresponding C++ template line by line; the `while (a != b)` guards of the
C++ loops are written as the equivalent bound checks on indices, which agree
with them on every valid (`first ≤ last`) range.
-/

namespace Graal

variable {α : Type}

/-- `std::iter_swap` on positions `i` and `j` of the sequence: read both
elements, then write each to the other position. -/
def swapL [Inhabited α] (xs : List α) (i j : Nat) : List α :=
  (xs.set i (xs.getD j default)).set j (xs.getD i default)

/-- One iteration of the `for` loop of `graal::minmax` (graal.h:35-42), at
loop index `i`, acting on the pair `(min_it, max_it)` of current extreme
positions.  The two `if`s of the body are independent, exactly as in the
source. -/
def minmaxStep [Inhabited α] (xs : List α) (cmp : α → α → Bool)
    (mm : Nat × Nat) (i : Nat) : Nat × Nat :=
  let mi := if cmp (xs.getD i default) (xs.getD mm.1 default)
      || (!cmp (xs.getD mm.1 default) (xs.getD i default) && decide (i < mm.1))
    then i else mm.1
  let ma := if cmp (xs.getD mm.2 default) (xs.getD i default)
      || (!cmp (xs.getD i default) (xs.getD mm.2 default) && decide (i > mm.2))
    then i else mm.2
  (mi, ma)

/-- `graal::minmax` (graal.h:28-45) over the whole sequence `xs`: positions
are indices, `first = 0`, `last = xs.length`.  Empty range returns
`(first, first)`; otherwise both extremes start at `first` and the loop
scans every index from `0`. -/
def minmax [Inhabited α] (xs : List α) (cmp : α → α → Bool) : Nat × Nat :=
  if xs.length = 0 then (0, 0)
  else (List.range xs.length).foldl (minmaxStep xs cmp) (0, 0)

/-- The loop of `graal::reverse` (graal.h:58-66) on the index range
`[f, l)`: while `first < last`, decrement `last`; if the two positions still
differ, swap them and advance `first`; otherwise loop (and exit at the next
check). -/
def reverseAux [Inhabited α] (xs : List α) (f l : Nat) : List α :=
  if f < l then
    if f ≠ l - 1 then reverseAux (swapL xs f (l - 1)) (f + 1) (l - 1)
    else reverseAux xs f (l - 1)
  else xs
termination_by l
decreasing_by all_goals omega

/-- `graal::reverse` over the whole sequence. -/
def reverse [Inhabited α] (xs : List α) : List α :=
  reverseAux xs 0 xs.length

/-- The loop of `graal::copy` (graal.h:82-89): `src` is the content of the
source range `[first, last)` (the `while (first != last)` loop visits
exactly these elements, in order); `dst` is the destination sequence and `d`
the destination cursor `d_first`.  Returns the written sequence and the
final destination cursor. -/
def copyAux (dst : List α) (d : Nat) : List α → List α × Nat
  | [] => (dst, d)
  | x :: src => copyAux (dst.set d x) (d + 1) src

/-- `graal::copy` of the source range with content `src` into the sequence
`dst` starting at position `d`. -/
def copy (src dst : List α) (d : Nat) : List α × Nat :=
  copyAux dst d src

/-- `graal::all_of` (graal.h:132-141): scan the range content; return
`false` at the first element failing `p`, else `true`. -/
def all_of (xs : List α) (p : α → Bool) : Bool :=
  match xs with
  | [] => true
  | x :: xs => if !p x then false else all_of xs p

/-- `graal::any_of` (graal.h:157-166): scan the range content; return
`true` at the first element satisfying `p`, else `false`. -/
def any_of (xs : List α) (p : α → Bool) : Bool :=
  match xs with
  | [] => false
  | x :: xs => if p x then true else any_of xs p

/-- `graal::none_of` (graal.h:183-191): scan the range content; return
`false` at the first element satisfying `p`, else `true`. -/
def none_of (xs : List α) (p : α → Bool) : Bool :=
  match xs with
  | [] => true
  | x :: xs => if p x then false else none_of xs p

/-- `graal::find_if` (graal.h:107-116) over the range `[f, f + xs.length)`
whose content is `xs`: position of the first element satisfying `p`, or the
end position if none does. -/
def find_if (xs : List α) (f : Nat) (p : α → Bool) : Nat :=
  match xs with
  | [] => f
  | x :: xs => if p x then f else find_if xs (f + 1) p

/-- The one-end overload `graal::equal(first1, last1, first2, eq)`
(graal.h:210-220).  `xs` is the content of the first range; the second range
lives in the sequence `ys` starting at index `f2`.  The loop runs for the
first range's length and dereferences `first2` each iteration; a
dereference outside `ys` is undefined behaviour, modelled as `none`. -/
def equal1 (xs ys : List α) (f2 : Nat) (eq : α → α → Bool) : Option Bool :=
  match xs with
  | [] => some true
  | x :: xs =>
    match ys[f2]? with
    | none => none
    | some y => if !eq x y then some false else equal1 xs ys (f2 + 1) eq

/-- The two-range overload `graal::equal(first1, last1, first2, last2, eq)`
(graal.h:222-232).  Its body is identical to the one-end overload; the
parameter `l2` (the position `last2`) is accepted but never used, exactly as
in the source. -/
def equal2 (xs ys : List α) (f2 l2 : Nat) (eq : α → α → Bool) : Option Bool :=
  match xs with
  | [] => some true
  | x :: xs =>
    match ys[f2]? with
    | none => none
    | some y => if !eq x y then some false else equal2 xs ys (f2 + 1) l2 eq

/-- Instrumentation of the two-range `graal::equal` overload: the list of
positions of the second sequence that the loop dereferences (`*first2`),
in order.  It follows `equal2` line by line: each iteration of the
`while (first1 != last1)` loop reads `*first2` once (also when that read is
out of bounds, or when the comparison then fails). -/
def equal2Reads (xs ys : List α) (f2 : Nat) (eq : α → α → Bool) : List Nat :=
  match xs with
  | [] => []
  | x :: xs =>
    match ys[f2]? with
    | none => [f2]
    | some y => if !eq x y then [f2] else f2 :: equal2Reads xs ys (f2 + 1) eq

/-- The loop of `graal::unique` (graal.h:246-257): `result` stays the saved
position, `f` is the current `first`, `l` is `last`.  Each iteration
pre-increments `first` and exits when it reaches `last`
(`while (++first != last)`); the body overwrites `*result` with `*first`
when the two compare equal. -/
def uniqueAux [Inhabited α] (xs : List α) (eq : α → α → Bool)
    (result f l : Nat) : List α × Nat :=
  if l ≤ f + 1 then (xs, result)
  else
    uniqueAux
      (if eq (xs.getD result default) (xs.getD (f + 1) default)
       then xs.set result (xs.getD (f + 1) default) else xs)
      eq result (f + 1) l
termination_by l - f
decreasing_by omega

/-- `graal::unique` on the range `[f, l)` of the sequence `xs`: empty range
returns `first`; otherwise `result = first` and the loop runs.  Returns the
final sequence and the returned position. -/
def unique [Inhabited α] (xs : List α) (eq : α → α → Bool) (f l : Nat) :
    List α × Nat :=
  if f = l then (xs, f) else uniqueAux xs eq f f l

/-- `graal::partition` (graal.h:270-286) on the index range `[f, l)`:
the outer `while (first != last)` loop; the inner `while (p(*first))` loop
advancing `first` (returning `first` when it reaches `last`); the
`do { --last } while (!p(*last))` loop (returning `first` when `last`
meets it); then `iter_swap(first++, last)` and repeat.  Each recursive call
re-enters the loop nest at a point where the skipped checks are already
known, so control flow is preserved exactly. -/
def partitionAux [Inhabited α] (xs : List α) (p : α → Bool) (f l : Nat) :
    List α × Nat :=
  if l ≤ f then (xs, f)
  else if p (xs.getD f default) then partitionAux xs p (f + 1) l
  else if l - 1 = f then (xs, f)
  else if p (xs.getD (l - 1) default) then
    partitionAux (swapL xs f (l - 1)) p (f + 1) (l - 1)
  else partitionAux xs p f (l - 1)
termination_by l - f
decreasing_by all_goals omega

/-- `graal::partition` over the whole sequence: `first = 0`,
`last = xs.length`. -/
def partition [Inhabited α] (xs : List α) (p : α → Bool) : List α × Nat :=
  partitionAux xs p 0 xs.length

/-! ### Helper lemmas about `swapL` -/

@[simp] lemma swapL_length [Inhabited α] (xs : List α) (i j : Nat) :
    (swapL xs i j).length = xs.length := by
  simp [swapL]

lemma getD_swapL [Inhabited α] (xs : List α) (i j k : Nat)
    (hi : i < xs.length) (hj : j < xs.length) :
    (swapL xs i j).getD k default =
      if k = j then xs.getD i default
      else if k = i then xs.getD j default
      else xs.getD k default := by
  have hj' : j < (xs.set i (xs.getD j default)).length := by simpa using hj
  unfold swapL
  by_cases hkj : k = j
  · subst hkj
    rw [List.getD_eq_getElem?_getD, List.getElem?_set_self hj', if_pos rfl]
    simp
  · rw [List.getD_eq_getElem?_getD, List.getElem?_set_ne (Ne.symm hkj),
      if_neg hkj]
    by_cases hki : k = i
    · subst hki
      rw [List.getElem?_set_self hi, if_pos rfl]
      simp
    · rw [List.getElem?_set_ne (Ne.symm hki), if_neg hki]
      simp

lemma getD_cons_set_perm [Inhabited α] :
    ∀ (t : List α) (k : Nat) (x : α), k < t.length →
      List.Perm (t.getD k default :: t.set k x) (x :: t)
  | y :: t, 0, x, _ => by
    simpa using List.Perm.swap x y t
  | y :: t, k + 1, x, hk => by
    have ih := getD_cons_set_perm t k x (by simpa using hk)
    show List.Perm (t.getD k default :: y :: t.set k x) (x :: y :: t)
    exact ((List.Perm.swap y (t.getD k default) (t.set k x)).trans
      (ih.cons y)).trans (List.Perm.swap x y t)

lemma swapL_perm [Inhabited α] :
    ∀ (xs : List α) (i j : Nat), i < j → j < xs.length →
      List.Perm (swapL xs i j) xs
  | x :: t, 0, j + 1, _, hj => by
    show List.Perm (((x :: t).set 0 ((x :: t).getD (j + 1) default)).set (j + 1)
        ((x :: t).getD 0 default)) (x :: t)
    simp only [List.set_cons_zero, List.getD_cons_succ, List.getD_cons_zero,
      List.set_cons_succ]
    exact getD_cons_set_perm t j x (by simpa using hj)
  | x :: t, i + 1, j + 1, hij, hj => by
    show List.Perm (((x :: t).set (i + 1) ((x :: t).getD (j + 1) default)).set
        (j + 1) ((x :: t).getD (i + 1) default)) (x :: t)
    simp only [List.getD_cons_succ, List.set_cons_succ]
    exact (swapL_perm t i j (by omega) (by simpa using hj)).cons x

/-! ### Claim theorems: empty-range quantifiers, `unique`, `equal` -/

/-- Claim C8: on an empty range (`begin == end`) `all_of` returns `true`,
`any_of` returns `false`, and `none_of` returns `true`, for every
predicate; the scans apply the predicate to no element, so the result does
not depend on `p` at all. -/
theorem emptyRange_all_any_none (p : α → Bool) :
    all_of ([] : List α) p = true ∧ any_of ([] : List α) p = false ∧
      none_of ([] : List α) p = true :=
  ⟨rfl, rfl, rfl⟩

lemma uniqueAux_snd [Inhabited α] (eq : α → α → Bool) (result : Nat) :
    ∀ (n : Nat) (xs : List α) (f l : Nat), l - f ≤ n →
      (uniqueAux xs eq result f l).2 = result := by
  intro n
  induction n with
  | zero =>
    intro xs f l h
    rw [uniqueAux]
    simp only [if_pos (by omega : l ≤ f + 1)]
  | succ n ih =>
    intro xs f l h
    rw [uniqueAux]
    by_cases hl : l ≤ f + 1
    · simp [hl]
    · simp only [if_neg hl]
      exact ih _ (f + 1) l (by omega)

/-- Claim C10: `graal::unique` always returns its `begin` argument: the
variable `result` is initialised to `first` and never advanced, so on the
empty range the early return yields `first`, and otherwise the loop returns
the untouched `result`. -/
theorem unique_returns_begin [Inhabited α] (xs : List α) (eq : α → α → Bool)
    (f l : Nat) : (unique xs eq f l).2 = f := by
  unfold unique
  by_cases h : f = l
  · simp [h]
  · simp only [if_neg h]
    exact uniqueAux_snd eq f (l - f) xs f l (by omega)

/-- Claim C1, the failing input: on `[1,1,2,2,2,3,1,1]` with integer
equality, `graal::unique` leaves the sequence unchanged (the prefix of
length four is still `[1,1,2,2]`, not the compacted `[1,2,3,1]`) and
returns the begin position `0`, not position `4`: the function's own
documentation promises removal of consecutive duplicates, but `result`
never advances. -/
theorem unique_C1_failing_input :
    unique [1, 1, 2, 2, 2, 3, 1, 1] (fun a b : Nat => a == b) 0 8
      = ([1, 1, 2, 2, 2, 3, 1, 1], 0) := by
  simp [unique, uniqueAux]

/-- Claim C9: the two-range overload of `graal::equal` computes exactly the
same result as the one-end overload on every input; its `last2` parameter
is never read, so it has no effect whatsoever (the two bodies are
identical). -/
theorem equal_twoRange_eq_oneEnd (xs ys : List α) (f2 l2 : Nat)
    (eq : α → α → Bool) :
    equal2 xs ys f2 l2 eq = equal1 xs ys f2 eq := by
  induction xs generalizing f2 with
  | nil => rfl
  | cons x xs ih =>
    unfold equal1 equal2
    cases ys[f2]? with
    | none => rfl
    | some y =>
      by_cases h : eq x y
      · simpa [h] using ih (f2 + 1)
      · simp [h]

lemma equal2Reads_lt_add (ys : List α) (eq : α → α → Bool) :
    ∀ (xs : List α) (f2 : Nat), ∀ j ∈ equal2Reads xs ys f2 eq,
      j < f2 + xs.length := by
  intro xs
  induction xs with
  | nil => intro f2 j hj; simp [equal2Reads] at hj
  | cons x xs ih =>
    intro f2 j hj
    unfold equal2Reads at hj
    cases hys : ys[f2]? with
    | none =>
      rw [hys] at hj
      simp at hj
      simp only [List.length_cons]
      omega
    | some y =>
      rw [hys] at hj
      by_cases h : eq x y
      · simp only [h, Bool.not_true, Bool.false_eq_true, if_neg] at hj
        rcases List.mem_cons.mp hj with rfl | hj
        · simp
        · have := ih (f2 + 1) j hj
          simp only [List.length_cons]
          omega
      · simp [h] at hj
        simp only [List.length_cons]
        omega

/-- Claim C3 (amended): the two-range `graal::equal` overload iterates by
the first range's length only (`last2` is never consulted), so every
dereferenced position of the second sequence is below `first2 + len1`; in
particular, when the second range `[first2, last2)` is at least as long as
the first range, no position at or past `last2` is ever dereferenced. -/
theorem equal2_reads_below_last2 (xs ys : List α) (f2 l2 : Nat)
    (eq : α → α → Bool) (h : f2 + xs.length ≤ l2) :
    ∀ j ∈ equal2Reads xs ys f2 eq, j < l2 := by
  intro j hj
  have := equal2Reads_lt_add ys eq xs f2 j hj
  omega

theorem equal2_reads_below_last2_witness :
    0 + ([1, 2] : List Nat).length ≤ 2 ∧
      ∀ j ∈ equal2Reads [1, 2] [1, 2] 0 (fun a b : Nat => a == b), j < 2 :=
  ⟨by decide,
    equal2_reads_below_last2 [1, 2] [1, 2] 0 2 (fun a b => a == b) (by decide)⟩

/-- Claim C3, refuted as stated: with first range `[1]` (one element) and
an empty second range (`first2 = last2 = 0`) over the sequence `[1]`, the
two-range `equal` dereferences the second range's position `0`, which is
at (not below) `last2 = 0`: iteration does not stop when the second range
is exhausted. -/
theorem equal2_derefs_past_last2_cex :
    0 ∈ equal2Reads [1] [(1 : Nat)] 0 (fun a b => a == b) ∧
      ¬ (0 < (0 : Nat)) := by
  exact ⟨by simp [equal2Reads], by decide⟩

/-- Claim C2, refuted as stated: on `[false, false]` with the comparator
`fun a b => !a && b` (Boolean `<`), the two elements are mutually unordered
(the comparator returns `false` both ways), so the earliest maximal
position is `0`; but `minmax` returns position `1` as the maximum: the max
scan moves to the *later* element on a tie. -/
theorem minmax_max_tiebreak_cex :
    (fun a b : Bool => !a && b) false false = false ∧
      (minmax [false, false] (fun a b : Bool => !a && b)).2 = 1 := by
  decide

/-! ### `copy` followed by `equal` (claim C7) -/

lemma copyAux_snd : ∀ (src dst : List α) (d : Nat),
    (copyAux dst d src).2 = d + src.length
  | [], _, _ => by simp [copyAux]
  | x :: src, dst, d => by
    show (copyAux (dst.set d x) (d + 1) src).2 = d + (x :: src).length
    rw [copyAux_snd src (dst.set d x) (d + 1)]
    simp only [List.length_cons]
    omega

lemma copyAux_getElem?_lt : ∀ (src dst : List α) (d j : Nat), j < d →
    (copyAux dst d src).1[j]? = dst[j]?
  | [], _, _, _, _ => rfl
  | x :: src, dst, d, j, hj => by
    show (copyAux (dst.set d x) (d + 1) src).1[j]? = dst[j]?
    rw [copyAux_getElem?_lt src (dst.set d x) (d + 1) j (by omega),
      List.getElem?_set_ne (by omega)]

lemma copyAux_equal1 (eq : α → α → Bool) (hrefl : ∀ a, eq a a = true) :
    ∀ (src dst : List α) (d : Nat), d + src.length ≤ dst.length →
      equal1 src (copyAux dst d src).1 d eq = some true
  | [], _, _, _ => rfl
  | x :: src, dst, d, h => by
    have hd : d < dst.length := by
      simp only [List.length_cons] at h; omega
    have hget : (copyAux (dst.set d x) (d + 1) src).1[d]? = some x := by
      rw [copyAux_getElem?_lt src (dst.set d x) (d + 1) d (by omega),
        List.getElem?_set_self (by simpa using hd)]
    show equal1 (x :: src) (copyAux (dst.set d x) (d + 1) src).1 d eq = some true
    unfold equal1
    rw [hget]
    simp only [hrefl x, Bool.not_true, Bool.false_eq_true, if_neg]
    exact copyAux_equal1 eq hrefl src (dst.set d x) (d + 1)
      (by simp only [List.length_cons] at h ⊢; simp only [List.length_set]; omega)

/-- Claim C7: copying a source range into a (disjointly modelled)
destination sequence of sufficient remaining length returns the destination
position one past the last written element, and a subsequent one-end
`equal` between source and destination with a reflexive equality functor
yields `true`. -/
theorem copy_then_equal (src dst : List α) (d : Nat) (eq : α → α → Bool)
    (hrefl : ∀ a, eq a a = true) (hlen : d + src.length ≤ dst.length) :
    (copy src dst d).2 = d + src.length ∧
      equal1 src (copy src dst d).1 d eq = some true :=
  ⟨copyAux_snd src dst d, copyAux_equal1 eq hrefl src dst d hlen⟩

theorem copy_then_equal_witness :
    (copy [1, 2] [0, 0, 0] 0).2 = 0 + ([1, 2] : List Nat).length ∧
      equal1 [1, 2] (copy [1, 2] [0, 0, 0] 0).1 0 (fun a b : Nat => a == b)
        = some true :=
  copy_then_equal [1, 2] [0, 0, 0] 0 (fun a b => a == b)
    (fun a => by simp) (by decide)

/-! ### `reverse` is an involution (claim C6) -/

lemma reverseAux_length [Inhabited α] (l : Nat) :
    ∀ (xs : List α) (f : Nat), (reverseAux xs f l).length = xs.length := by
  induction l using Nat.strong_induction_on with
  | _ l ih =>
    intro xs f
    rw [reverseAux]
    by_cases h1 : f < l
    · simp only [if_pos h1]
      by_cases h2 : f ≠ l - 1
      · rw [if_pos h2, ih (l - 1) (by omega)]
        simp
      · rw [if_neg h2, ih (l - 1) (by omega)]
    · simp [h1]

lemma getElem_eq_getD [Inhabited α] (xs : List α) (i : Nat)
    (h : i < xs.length) : xs[i] = xs.getD i default := by
  rw [List.getD_eq_getElem?_getD, List.getElem?_eq_getElem h]
  rfl

lemma reverseAux_getD [Inhabited α] (l : Nat) :
    ∀ (xs : List α) (f k : Nat), f ≤ l → l ≤ xs.length →
      (reverseAux xs f l).getD k default =
        if f ≤ k ∧ k < l then xs.getD (f + l - 1 - k) default
        else xs.getD k default := by
  induction l using Nat.strong_induction_on with
  | _ l ih =>
    intro xs f k hfl hl
    rw [reverseAux]
    by_cases h1 : f < l
    · simp only [if_pos h1]
      by_cases h2 : f ≠ l - 1
      · rw [if_pos h2]
        have hflen : f < xs.length := by omega
        have hl1len : l - 1 < xs.length := by omega
        rw [ih (l - 1) (by omega) (swapL xs f (l - 1)) (f + 1) k (by omega)
          (by simp; omega)]
        rw [getD_swapL xs f (l - 1) (f + 1 + (l - 1) - 1 - k) hflen hl1len,
          getD_swapL xs f (l - 1) k hflen hl1len]
        by_cases hk1 : f + 1 ≤ k ∧ k < l - 1
        · rw [if_pos hk1, if_pos (by omega : f ≤ k ∧ k < l)]
          rw [if_neg (by omega), if_neg (by omega)]
          have : f + 1 + (l - 1) - 1 - k = f + l - 1 - k := by omega
          rw [this]
        · rw [if_neg hk1]
          by_cases hkf : k = f
          · rw [if_neg (by omega), if_pos hkf, if_pos (by omega : f ≤ k ∧ k < l)]
            have : f + l - 1 - k = l - 1 := by omega
            rw [this]
          · by_cases hkl : k = l - 1
            · rw [if_pos hkl, if_pos (by omega : f ≤ k ∧ k < l)]
              have : f + l - 1 - k = f := by omega
              rw [this]
            · rw [if_neg hkl, if_neg hkf, if_neg (by omega)]
      · rw [if_neg h2]
        have hf : f = l - 1 := by omega
        rw [ih (l - 1) (by omega) xs f k (by omega) (by omega)]
        rw [if_neg (by omega : ¬(f ≤ k ∧ k < l - 1))]
        by_cases hk : f ≤ k ∧ k < l
        · rw [if_pos hk]
          have : f + l - 1 - k = k := by omega
          rw [this]
        · rw [if_neg hk]
    · simp only [if_neg h1]
      rw [if_neg (by omega : ¬(f ≤ k ∧ k < l))]

lemma reverse_length [Inhabited α] (xs : List α) :
    (reverse xs).length = xs.length :=
  reverseAux_length xs.length xs 0

lemma reverse_getD [Inhabited α] (xs : List α) (k : Nat) (hk : k < xs.length) :
    (reverse xs).getD k default = xs.getD (xs.length - 1 - k) default := by
  unfold reverse
  rw [reverseAux_getD xs.length xs 0 k (by omega) (le_refl _),
    if_pos ⟨Nat.zero_le k, hk⟩]
  have : 0 + xs.length - 1 - k = xs.length - 1 - k := by omega
  rw [this]

/-- Claim C6: applying `graal::reverse` twice restores the original
sequence: the inward swap loop is an element-wise involution. -/
theorem reverse_involution [Inhabited α] (xs : List α) :
    reverse (reverse xs) = xs := by
  apply List.ext_getElem
  · rw [reverse_length, reverse_length]
  · intro i h1 h2
    have hlen : (reverse (reverse xs)).length = xs.length := by
      rw [reverse_length, reverse_length]
    have hi : i < xs.length := h2
    have hi1 : i < (reverse xs).length := by rw [reverse_length]; exact hi
    rw [getElem_eq_getD _ _ h1, getElem_eq_getD _ _ h2]
    rw [reverse_getD (reverse xs) i hi1]
    rw [reverse_length]
    have hlt : xs.length - 1 - i < xs.length := by omega
    rw [reverse_getD xs (xs.length - 1 - i) hlt]
    have : xs.length - 1 - (xs.length - 1 - i) = i := by omega
    rw [this]

/-! ### `partition` (claim C4) -/

lemma partitionAux_spec [Inhabited α] (p : α → Bool) :
    ∀ (n : Nat) (xs : List α) (f l : Nat), l - f ≤ n → f ≤ l → l ≤ xs.length →
      (partitionAux xs p f l).1.length = xs.length ∧
      f ≤ (partitionAux xs p f l).2 ∧
      (partitionAux xs p f l).2 ≤ l ∧
      (∀ i, i < f ∨ l ≤ i →
        (partitionAux xs p f l).1.getD i default = xs.getD i default) ∧
      (∀ i, f ≤ i → i < (partitionAux xs p f l).2 →
        p ((partitionAux xs p f l).1.getD i default) = true) ∧
      (∀ i, (partitionAux xs p f l).2 ≤ i → i < l →
        p ((partitionAux xs p f l).1.getD i default) = false) ∧
      List.Perm (partitionAux xs p f l).1 xs := by
  intro n
  induction n with
  | zero =>
    intro xs f l hn hfl hl
    have hlf : l ≤ f := by omega
    rw [partitionAux, if_pos hlf]
    exact ⟨rfl, Nat.le_refl f, hfl, fun i _ => rfl,
      fun i h1 h2 => absurd h2 (Nat.not_lt.mpr h1),
      fun i h1 h2 => absurd h2 (Nat.not_lt.mpr (Nat.le_trans hlf h1)),
      List.Perm.refl xs⟩
  | succ n ih =>
    intro xs f l hn hfl hl
    rw [partitionAux]
    by_cases hlf : l ≤ f
    · rw [if_pos hlf]
      exact ⟨rfl, Nat.le_refl f, hfl, fun i _ => rfl,
        fun i h1 h2 => absurd h2 (Nat.not_lt.mpr h1),
        fun i h1 h2 => absurd h2 (Nat.not_lt.mpr (Nat.le_trans hlf h1)),
        List.Perm.refl xs⟩
    · rw [if_neg hlf]
      by_cases hpf : p (xs.getD f default) = true
      · rw [if_pos hpf]
        obtain ⟨len, hr1, hr2, hout, htrue, hfalse, hperm⟩ :=
          ih xs (f + 1) l (by omega) (by omega) hl
        refine ⟨len, by omega, hr2, ?_, ?_, hfalse, hperm⟩
        · intro i hi
          exact hout i (by omega)
        · intro i h1 h2
          by_cases hif : i = f
          · rw [hout i (Or.inl (by omega)), hif]
            exact hpf
          · exact htrue i (by omega) h2
      · have hpf' : p (xs.getD f default) = false := by
          revert hpf; cases p (xs.getD f default) <;> simp
        rw [if_neg hpf]
        by_cases hl1 : l - 1 = f
        · rw [if_pos hl1]
          refine ⟨rfl, le_refl f, hfl, fun i _ => rfl,
            fun i h1 h2 => absurd h2 (by omega), ?_, List.Perm.refl xs⟩
          intro i h1 h2
          have : i = f := by omega
          rw [this]
          exact hpf'
        · rw [if_neg hl1]
          have hfl1 : f < l - 1 := by omega
          have hflen : f < xs.length := by omega
          have hl1len : l - 1 < xs.length := by omega
          by_cases hpl : p (xs.getD (l - 1) default) = true
          · rw [if_pos hpl]
            obtain ⟨len, hr1, hr2, hout, htrue, hfalse, hperm⟩ :=
              ih (swapL xs f (l - 1)) (f + 1) (l - 1) (by omega) (by omega)
                (by rw [swapL_length]; omega)
            have hys : ∀ i, i ≠ f → i ≠ l - 1 →
                (swapL xs f (l - 1)).getD i default = xs.getD i default := by
              intro i hif hil
              rw [getD_swapL xs f (l - 1) i hflen hl1len, if_neg hil, if_neg hif]
            refine ⟨len.trans (swapL_length xs f (l - 1)), by omega, by omega,
              ?_, ?_, ?_, hperm.trans (swapL_perm xs f (l - 1) hfl1 hl1len)⟩
            · intro i hi
              rw [hout i (by omega)]
              exact hys i (by omega) (by omega)
            · intro i h1 h2
              by_cases hif : i = f
              · rw [hout i (Or.inl (by omega)),
                  getD_swapL xs f (l - 1) i hflen hl1len,
                  if_neg (by omega : ¬ i = l - 1), if_pos hif]
                exact hpl
              · exact htrue i (by omega) h2
            · intro i h1 h2
              by_cases hil : i = l - 1
              · rw [hout i (by omega),
                  getD_swapL xs f (l - 1) i hflen hl1len, if_pos hil]
                exact hpf'
              · exact hfalse i h1 (by omega)
          · have hpl' : p (xs.getD (l - 1) default) = false := by
              revert hpl; cases p (xs.getD (l - 1) default) <;> simp
            rw [if_neg hpl]
            obtain ⟨len, hr1, hr2, hout, htrue, hfalse, hperm⟩ :=
              ih xs f (l - 1) (by omega) (by omega) (by omega)
            refine ⟨len, hr1, by omega, ?_, htrue, ?_, hperm⟩
            · intro i hi
              exact hout i (by omega)
            · intro i h1 h2
              by_cases hil : i = l - 1
              · rw [hout i (by omega), hil]
                exact hpl'
              · exact hfalse i h1 (by omega)

/-- Claim C4: after `graal::partition`, the result is a permutation of the
input in which every element satisfying `p` precedes every element not
satisfying it; the returned position is the boundary of the two groups —
the elements strictly before it all satisfy `p`, the elements from it to
the end all fail `p` — and it equals `end` (the length) when every element
satisfies `p` and `begin` (`0`) when none does. -/
theorem partition_correct [Inhabited α] (xs : List α) (p : α → Bool) :
    List.Perm (partition xs p).1 xs ∧
      (partition xs p).2 ≤ xs.length ∧
      (∀ i, i < (partition xs p).2 →
        p ((partition xs p).1.getD i default) = true) ∧
      (∀ i, (partition xs p).2 ≤ i → i < xs.length →
        p ((partition xs p).1.getD i default) = false) ∧
      ((∀ x ∈ xs, p x = true) → (partition xs p).2 = xs.length) ∧
      ((∀ x ∈ xs, p x = false) → (partition xs p).2 = 0) := by
  obtain ⟨len, hr1, hr2, hout, htrue, hfalse, hperm⟩ :=
    partitionAux_spec p (xs.length - 0) xs 0 xs.length (le_refl _)
      (Nat.zero_le _) (le_refl _)
  unfold partition
  refine ⟨hperm, hr2, fun i hi => htrue i (Nat.zero_le i) hi, hfalse, ?_, ?_⟩
  · intro hall
    by_contra hne
    have hrlt : (partitionAux xs p 0 xs.length).2 < xs.length := by omega
    have hmem : (partitionAux xs p 0 xs.length).1.getD
        (partitionAux xs p 0 xs.length).2 default ∈
          (partitionAux xs p 0 xs.length).1 := by
      rw [← getElem_eq_getD _ _ (by omega)]
      exact List.getElem_mem _
    have := hall _ (hperm.mem_iff.mp hmem)
    rw [hfalse _ (le_refl _) hrlt] at this
    exact absurd this (by simp)
  · intro hnone
    by_contra hne
    have hrpos : 0 < (partitionAux xs p 0 xs.length).2 := by omega
    have hmem : (partitionAux xs p 0 xs.length).1.getD 0 default ∈
        (partitionAux xs p 0 xs.length).1 := by
      rw [← getElem_eq_getD _ _ (by omega)]
      exact List.getElem_mem _
    have := hnone _ (hperm.mem_iff.mp hmem)
    rw [htrue 0 (le_refl _) hrpos] at this
    exact absurd this (by simp)

theorem partition_correct_witness :
    List.Perm (partition [1, 2, 3, 4, 5] (fun x : Nat => x % 2 == 0)).1
        [1, 2, 3, 4, 5] ∧
      (partition [1, 2, 3, 4, 5] (fun x : Nat => x % 2 == 0)).2 ≤
        ([1, 2, 3, 4, 5] : List Nat).length :=
  ⟨(partition_correct [1, 2, 3, 4, 5] (fun x => x % 2 == 0)).1,
    (partition_correct [1, 2, 3, 4, 5] (fun x => x % 2 == 0)).2.1⟩

/-! ### `minmax` (claims C2 and C5)

The comparator hypotheses are the strict-weak-ordering axioms:
irreflexivity, transitivity, and transitivity of incomparability. -/

lemma minmax_fold_succ [Inhabited α] (xs : List α) (cmp : α → α → Bool)
    (n : Nat) :
    (List.range (n + 1)).foldl (minmaxStep xs cmp) (0, 0) =
      minmaxStep xs cmp ((List.range n).foldl (minmaxStep xs cmp) (0, 0)) n := by
  rw [List.range_succ, List.foldl_append, List.foldl_cons, List.foldl_nil]

lemma bool_eq_false {b : Bool} (h : ¬ b = true) : b = false := by
  revert h; cases b <;> simp

/-- Min branch, comparator says the new element is strictly below the
current minimum: the minimum moves to position `n`, every earlier element
is strictly above it, and nothing seen is below it. -/
lemma min_inv_update [Inhabited α] (xs : List α) (cmp : α → α → Bool)
    (hirr : ∀ a, cmp a a = false)
    (htr : ∀ a b c, cmp a b = true → cmp b c = true → cmp a c = true)
    (hinc : ∀ a b c, cmp a b = false → cmp b a = false → cmp b c = false →
      cmp c b = false → cmp a c = false)
    (n m : Nat) (hm : m < n)
    (h1 : ∀ i < n, cmp (xs.getD i default) (xs.getD m default) = false)
    (h2 : ∀ i < m, cmp (xs.getD m default) (xs.getD i default) = true)
    (hc : cmp (xs.getD n default) (xs.getD m default) = true) :
    (∀ i < n + 1,
      cmp (xs.getD i default) (xs.getD n default) = false) ∧
    (∀ i < n, cmp (xs.getD n default) (xs.getD i default) = true) := by
  have hlow : ∀ i < n, cmp (xs.getD n default) (xs.getD i default) = true := by
    intro i hi
    by_cases him : i < m
    · exact htr _ _ _ hc (h2 i him)
    · by_cases hmi : cmp (xs.getD m default) (xs.getD i default) = true
      · exact htr _ _ _ hc hmi
      · by_cases hyi : cmp (xs.getD n default) (xs.getD i default) = true
        · exact hyi
        · by_cases hiy : cmp (xs.getD i default) (xs.getD n default) = true
          · exact absurd (htr _ _ _ hiy hc) (by rw [h1 i hi]; simp)
          · have := hinc (xs.getD n default) (xs.getD i default)
              (xs.getD m default) (bool_eq_false hyi) (bool_eq_false hiy)
              (h1 i hi) (bool_eq_false hmi)
            rw [this] at hc
            exact absurd hc (by simp)
  refine ⟨?_, hlow⟩
  intro i hi
  by_cases hin : i = n
  · rw [hin]; exact hirr _
  · by_cases hiy : cmp (xs.getD i default) (xs.getD n default) = true
    · exact absurd (htr _ _ _ hiy hc) (by rw [h1 i (by omega)]; simp)
    · exact bool_eq_false hiy

/-- Min branch, comparator says the new element is not strictly below the
current minimum (and the dead position-comparison disjunct is false): the
minimum stays put and the invariants extend. -/
lemma min_inv_keep [Inhabited α] (xs : List α) (cmp : α → α → Bool)
    (n m : Nat)
    (h1 : ∀ i < n, cmp (xs.getD i default) (xs.getD m default) = false)
    (hc : cmp (xs.getD n default) (xs.getD m default) = false) :
    ∀ i < n + 1, cmp (xs.getD i default) (xs.getD m default) = false := by
  intro i hi
  by_cases hin : i = n
  · rw [hin]; exact hc
  · exact h1 i (by omega)

/-- Max branch, the condition
`cmp (*max_it, *it) || (!cmp (*it, *max_it) && it > max_it)` holds: the
maximum moves to position `n` and nothing seen is above it. -/
lemma max_inv_update [Inhabited α] (xs : List α) (cmp : α → α → Bool)
    (hirr : ∀ a, cmp a a = false)
    (htr : ∀ a b c, cmp a b = true → cmp b c = true → cmp a c = true)
    (hinc : ∀ a b c, cmp a b = false → cmp b a = false → cmp b c = false →
      cmp c b = false → cmp a c = false)
    (n M : Nat) (hM : M < n)
    (h3 : ∀ i < n, cmp (xs.getD M default) (xs.getD i default) = false)
    (hd : cmp (xs.getD M default) (xs.getD n default) = true ∨
      cmp (xs.getD n default) (xs.getD M default) = false) :
    ∀ i < n + 1, cmp (xs.getD n default) (xs.getD i default) = false := by
  intro i hi
  by_cases hin : i = n
  · rw [hin]; exact hirr _
  · have hi' : i < n := by omega
    by_cases hyi : cmp (xs.getD n default) (xs.getD i default) = true
    · rcases hd with hMy | hyM
      · exact absurd (htr _ _ _ hMy hyi) (by rw [h3 i hi']; simp)
      · by_cases hiM : cmp (xs.getD i default) (xs.getD M default) = true
        · rw [htr _ _ _ hyi hiM] at hyM
          exact absurd hyM (by simp)
        · by_cases hMy : cmp (xs.getD M default) (xs.getD n default) = true
          · exact absurd (htr _ _ _ hMy hyi) (by rw [h3 i hi']; simp)
          · have := hinc (xs.getD n default) (xs.getD M default)
              (xs.getD i default) hyM (bool_eq_false hMy) (h3 i hi')
              (bool_eq_false hiM)
            rw [this] at hyi
            exact absurd hyi (by simp)
    · exact bool_eq_false hyi

lemma minmaxStep_invariant [Inhabited α] (xs : List α) (cmp : α → α → Bool)
    (hirr : ∀ a, cmp a a = false)
    (htr : ∀ a b c, cmp a b = true → cmp b c = true → cmp a c = true)
    (hinc : ∀ a b c, cmp a b = false → cmp b a = false → cmp b c = false →
      cmp c b = false → cmp a c = false)
    (n m M : Nat) (hm : m < n) (hM : M < n)
    (h1 : ∀ i < n, cmp (xs.getD i default) (xs.getD m default) = false)
    (h2 : ∀ i < m, cmp (xs.getD m default) (xs.getD i default) = true)
    (h3 : ∀ i < n, cmp (xs.getD M default) (xs.getD i default) = false)
    (h4 : ∀ i, M < i → i < n →
      cmp (xs.getD i default) (xs.getD M default) = true) :
    (minmaxStep xs cmp (m, M) n).1 < n + 1 ∧
    (minmaxStep xs cmp (m, M) n).2 < n + 1 ∧
    (∀ i < n + 1, cmp (xs.getD i default)
      (xs.getD (minmaxStep xs cmp (m, M) n).1 default) = false) ∧
    (∀ i < (minmaxStep xs cmp (m, M) n).1,
      cmp (xs.getD (minmaxStep xs cmp (m, M) n).1 default)
        (xs.getD i default) = true) ∧
    (∀ i < n + 1, cmp (xs.getD (minmaxStep xs cmp (m, M) n).2 default)
      (xs.getD i default) = false) ∧
    (∀ i, (minmaxStep xs cmp (m, M) n).2 < i → i < n + 1 →
      cmp (xs.getD i default)
        (xs.getD (minmaxStep xs cmp (m, M) n).2 default) = true) := by
  have hnm : decide (n < m) = false := decide_eq_false (by omega)
  have hnM : decide (n > M) = true := decide_eq_true (by omega)
  have hstep : minmaxStep xs cmp (m, M) n =
      (if cmp (xs.getD n default) (xs.getD m default) then n else m,
       if cmp (xs.getD M default) (xs.getD n default)
          || !cmp (xs.getD n default) (xs.getD M default) then n else M) := by
    unfold minmaxStep
    rw [hnm, hnM]
    simp
  rw [hstep]
  by_cases hc : cmp (xs.getD n default) (xs.getD m default) = true
  · rw [if_pos hc]
    obtain ⟨hA1, hA2⟩ :=
      min_inv_update xs cmp hirr htr hinc n m hm h1 h2 hc
    by_cases hd : (cmp (xs.getD M default) (xs.getD n default)
        || !cmp (xs.getD n default) (xs.getD M default)) = true
    · rw [if_pos hd]
      have hB1 := max_inv_update xs cmp hirr htr hinc n M hM h3
        (by rcases Bool.or_eq_true_iff.mp hd with h | h
            · exact Or.inl h
            · exact Or.inr (by simpa using h))
      exact ⟨by omega, by omega, hA1, hA2, hB1,
        fun i hgt hlt => absurd (by omega : i < n + 1) (by omega)⟩
    · have hd' : cmp (xs.getD M default) (xs.getD n default) = false ∧
          cmp (xs.getD n default) (xs.getD M default) = true := by
        rcases Bool.or_eq_false_iff.mp (bool_eq_false hd) with ⟨ha, hb⟩
        exact ⟨ha, by simpa using hb⟩
      rw [if_neg hd]
      refine ⟨by omega, by omega, hA1, hA2, ?_, ?_⟩
      · intro i hi
        by_cases hin : i = n
        · rw [hin]; exact hd'.1
        · exact h3 i (by omega)
      · intro i hgt hlt
        by_cases hin : i = n
        · rw [hin]; exact hd'.2
        · exact h4 i hgt (by omega)
  · rw [if_neg hc]
    have hA1 := min_inv_keep xs cmp n m h1 (bool_eq_false hc)
    by_cases hd : (cmp (xs.getD M default) (xs.getD n default)
        || !cmp (xs.getD n default) (xs.getD M default)) = true
    · rw [if_pos hd]
      have hB1 := max_inv_update xs cmp hirr htr hinc n M hM h3
        (by rcases Bool.or_eq_true_iff.mp hd with h | h
            · exact Or.inl h
            · exact Or.inr (by simpa using h))
      exact ⟨by omega, by omega, hA1, fun i hi => h2 i hi, hB1,
        fun i hgt hlt => absurd (by omega : i < n + 1) (by omega)⟩
    · have hd' : cmp (xs.getD M default) (xs.getD n default) = false ∧
          cmp (xs.getD n default) (xs.getD M default) = true := by
        rcases Bool.or_eq_false_iff.mp (bool_eq_false hd) with ⟨ha, hb⟩
        exact ⟨ha, by simpa using hb⟩
      rw [if_neg hd]
      refine ⟨by omega, by omega, hA1, fun i hi => h2 i hi, ?_, ?_⟩
      · intro i hi
        by_cases hin : i = n
        · rw [hin]; exact hd'.1
        · exact h3 i (by omega)
      · intro i hgt hlt
        by_cases hin : i = n
        · rw [hin]; exact hd'.2
        · exact h4 i hgt (by omega)

lemma minmax_fold_invariant [Inhabited α] (xs : List α) (cmp : α → α → Bool)
    (hirr : ∀ a, cmp a a = false)
    (htr : ∀ a b c, cmp a b = true → cmp b c = true → cmp a c = true)
    (hinc : ∀ a b c, cmp a b = false → cmp b a = false → cmp b c = false →
      cmp c b = false → cmp a c = false) :
    ∀ n, 1 ≤ n → n ≤ xs.length →
      ((List.range n).foldl (minmaxStep xs cmp) (0, 0)).1 < n ∧
      ((List.range n).foldl (minmaxStep xs cmp) (0, 0)).2 < n ∧
      (∀ i < n, cmp (xs.getD i default)
        (xs.getD ((List.range n).foldl (minmaxStep xs cmp) (0, 0)).1
          default) = false) ∧
      (∀ i < ((List.range n).foldl (minmaxStep xs cmp) (0, 0)).1,
        cmp (xs.getD ((List.range n).foldl (minmaxStep xs cmp) (0, 0)).1
          default) (xs.getD i default) = true) ∧
      (∀ i < n, cmp
        (xs.getD ((List.range n).foldl (minmaxStep xs cmp) (0, 0)).2 default)
        (xs.getD i default) = false) ∧
      (∀ i, ((List.range n).foldl (minmaxStep xs cmp) (0, 0)).2 < i → i < n →
        cmp (xs.getD i default)
          (xs.getD ((List.range n).foldl (minmaxStep xs cmp) (0, 0)).2
            default) = true) := by
  intro n
  induction n with
  | zero => intro h; omega
  | succ n ihn =>
    intro h1n hlen
    rw [minmax_fold_succ]
    by_cases hn0 : n = 0
    · subst hn0
      have hbase : (List.range 0).foldl (minmaxStep xs cmp) (0, 0) = (0, 0) :=
        rfl
      rw [hbase]
      have hstep0 : minmaxStep xs cmp (0, 0) 0 = (0, 0) := by
        unfold minmaxStep
        simp [hirr]
      rw [hstep0]
      refine ⟨by omega, by omega, ?_, ?_, ?_, ?_⟩
      · intro i hi
        have : i = 0 := by omega
        rw [this]
        exact hirr _
      · intro i hi
        exact absurd hi (by omega)
      · intro i hi
        have : i = 0 := by omega
        rw [this]
        exact hirr _
      · intro i hgt hlt
        exact absurd hlt (by omega)
    · obtain ⟨hm, hM, h1, h2, h3, h4⟩ := ihn (by omega) (by omega)
      exact minmaxStep_invariant xs cmp hirr htr hinc n _ _ hm hM h1 h2 h3 h4

/-- Claim C5: for every non-empty sequence and comparator satisfying the
strict-weak-ordering axioms (irreflexivity, transitivity, transitivity of
incomparability), `graal::minmax` returns positions `(m, M)` inside the
range such that no element compares strictly less than the element at `m`
and no element compares strictly greater than the element at `M`. -/
theorem minmax_extremal [Inhabited α] (xs : List α) (cmp : α → α → Bool)
    (hne : xs ≠ [])
    (hirr : ∀ a, cmp a a = false)
    (htr : ∀ a b c, cmp a b = true → cmp b c = true → cmp a c = true)
    (hinc : ∀ a b c, cmp a b = false → cmp b a = false → cmp b c = false →
      cmp c b = false → cmp a c = false) :
    (minmax xs cmp).1 < xs.length ∧ (minmax xs cmp).2 < xs.length ∧
      (∀ i < xs.length, cmp (xs.getD i default)
        (xs.getD (minmax xs cmp).1 default) = false) ∧
      (∀ i < xs.length, cmp (xs.getD (minmax xs cmp).2 default)
        (xs.getD i default) = false) := by
  have hlen : ¬ xs.length = 0 := by
    simpa using hne
  unfold minmax
  rw [if_neg hlen]
  obtain ⟨ha, hb, hc, _, he, _⟩ := minmax_fold_invariant xs cmp hirr htr hinc
    xs.length (by omega) (Nat.le_refl _)
  exact ⟨ha, hb, hc, he⟩

theorem minmax_extremal_witness :
    (minmax [false, true, false] (fun a b : Bool => !a && b)).1 <
        ([false, true, false] : List Bool).length ∧
      (minmax [false, true, false] (fun a b : Bool => !a && b)).2 <
        ([false, true, false] : List Bool).length :=
  ⟨(minmax_extremal [false, true, false] (fun a b => !a && b) (by decide)
      (by decide) (by decide) (by decide)).1,
    (minmax_extremal [false, true, false] (fun a b => !a && b) (by decide)
      (by decide) (by decide) (by decide)).2.1⟩

/-- Claim C2 (amended): under the strict-weak-ordering axioms, the two
extremes break ties in opposite directions: every position strictly before
the returned minimum holds an element strictly greater than the minimum
(earliest-wins for the minimum), while every position strictly after the
returned maximum holds an element strictly less than the maximum — on a
tie the maximum moves to the *later* position, because the second disjunct
`!cmp(*it, *max_it) && it > max_it` of the max update fires on equivalent
elements. -/
theorem minmax_tiebreak [Inhabited α] (xs : List α) (cmp : α → α → Bool)
    (hne : xs ≠ [])
    (hirr : ∀ a, cmp a a = false)
    (htr : ∀ a b c, cmp a b = true → cmp b c = true → cmp a c = true)
    (hinc : ∀ a b c, cmp a b = false → cmp b a = false → cmp b c = false →
      cmp c b = false → cmp a c = false) :
    (∀ i < (minmax xs cmp).1, cmp (xs.getD (minmax xs cmp).1 default)
      (xs.getD i default) = true) ∧
    (∀ i, (minmax xs cmp).2 < i → i < xs.length →
      cmp (xs.getD i default) (xs.getD (minmax xs cmp).2 default) = true) := by
  have hlen : ¬ xs.length = 0 := by
    simpa using hne
  unfold minmax
  rw [if_neg hlen]
  obtain ⟨_, _, _, hd, _, hf⟩ := minmax_fold_invariant xs cmp hirr htr hinc
    xs.length (by omega) (Nat.le_refl _)
  exact ⟨hd, hf⟩

theorem minmax_tiebreak_witness :
    (fun a b : Bool => !a && b)
        (([true, false, true] : List Bool).getD
          (minmax [true, false, true] (fun a b : Bool => !a && b)).1 default)
        (([true, false, true] : List Bool).getD 0 default) = true :=
  (minmax_tiebreak [true, false, true] (fun a b => !a && b) (by decide)
    (by decide) (by decide) (by decide)).1 0 (by decide)

end Graal
